import Mathlib

/-!
Verification of the dependency-chain resolution core of
`src/utils/graphUtils.ts` (calculated-field dependency resolver).

The embedding mirrors the TypeScript source:
* `extractTokens` scans an expression character by character, tracking
  the two quote flags (`inSingleQuote`, `inDoubleQuote`) exactly as the
  for-loop in the source does; the loop body is `scanStep`, the loop is a
  left fold over the characters, and the trailing pending token is pushed
  at end of input.
* `getDependencyChain` seeds the chain with the target field at level 0,
  builds the name lookup map by successive insertion (later records
  overwrite earlier ones, modelled by `fieldMapLookup`), and calls the
  recursive `findDependencies`.
* The source's `findDependencies` recurses with `level + 1` and returns
  immediately when `level > 20`, so every call chain is at most 22 frames
  deep.  The embedding makes this explicit with a structural fuel
  argument that is always `22 - level` at each call site: when fuel
  reaches 0 the level is 22 > 20, so returning the state unchanged is
  exactly what the source's guard does.  This keeps the definition
  structurally recursive, hence executable by `decide`/`rfl`.
-/

namespace GraphUtils

/-- The single-quote character (code 39), written via `Char.ofNat`. -/
def squote : Char := Char.ofNat 39

/-- The double-quote character (code 34), written via `Char.ofNat`. -/
def dquote : Char := Char.ofNat 34

/-- `CalculatedField` record from `src/types/CalculatedField`:
a named expression plus its originating dataset identifier. -/
structure CalculatedField where
  name : String
  expression : String
  dataSetIdentifier : String
deriving DecidableEq, Repr

/-- One entry of the dependency chain produced by `getDependencyChain`. -/
structure ChainEntry where
  «alias» : String
  expression : String
  type : String
  level : Nat
deriving DecidableEq, Repr

/-- A character matches the regex `[\w-]` of the source:
ASCII letters, digits, underscore or hyphen. -/
def isWordChar (c : Char) : Bool :=
  c.isAlphanum || c == '_' || c == '-'

/-- Scanner state of `extractTokens`: the two quote flags, the token
being built, and the tokens emitted so far. -/
structure ScanState where
  inSingleQuote : Bool
  inDoubleQuote : Bool
  token : List Char
  tokens : List String
deriving DecidableEq, Repr

/-- The body of the character loop of `extractTokens`. -/
def scanStep (st : ScanState) (c : Char) : ScanState :=
  if c == squote && !st.inDoubleQuote then
    { st with inSingleQuote := !st.inSingleQuote }
  else if c == dquote && !st.inSingleQuote then
    { st with inDoubleQuote := !st.inDoubleQuote }
  else if st.inSingleQuote || st.inDoubleQuote then
    st
  else if isWordChar c then
    { st with token := st.token ++ [c] }
  else if st.token.length > 0 then
    { st with token := [], tokens := st.tokens ++ [String.mk st.token] }
  else
    st

/-- Run the character loop of `extractTokens` over a list of characters. -/
def scanChars (cs : List Char) (st : ScanState) : ScanState :=
  cs.foldl scanStep st

/-- `extractTokens` of the source: tokens (maximal `[\w-]` runs) of the
expression outside quoted regions, in order; the pending token, if any,
is pushed after the loop. -/
def extractTokens (expression : String) : List String :=
  let st := scanChars expression.data ⟨false, false, [], []⟩
  if st.token.length > 0 then st.tokens ++ [String.mk st.token] else st.tokens

/-- Lookup in the `fieldMap` built by
`calculatedFields.forEach((field) => fieldMap.set(field.name, field))`:
successive insertion means the last record with a given name wins. -/
def fieldMapLookup (fields : List CalculatedField) (n : String) :
    Option CalculatedField :=
  fields.foldl (fun acc f => if f.name = n then some f else acc) none

/-- Resolver state: the chain built so far and the visited name set
(the JS `Set` is modelled as a list queried by membership). -/
structure ResolveState where
  chain : List ChainEntry
  visited : List String
deriving DecidableEq, Repr

/-- The `tokens.forEach` loop of `findDependencies`, at depth `level`:
for each token that names a field and is not yet visited, append its
entry at `level + 1`, mark it visited, and recurse into it.  `recurse`
is the one-level-deeper `findDependencies`. -/
def forEachToken (fields : List CalculatedField) (level : Nat)
    (recurse : CalculatedField → ResolveState → ResolveState) :
    List String → ResolveState → ResolveState
  | [], st => st
  | t :: rest, st =>
    let st' :=
      match fieldMapLookup fields t with
      | some dep =>
        if st.visited.contains t then st
        else
          recurse dep
            ⟨st.chain ++ [⟨dep.name, dep.expression, "calculatedField", level + 1⟩],
             t :: st.visited⟩
      | none => st
    forEachToken fields level recurse rest st'

/-- `findDependencies` of the source.  `fuel` is `22 - level` at every
call site; the `fuel = 0` case coincides with the source's
`if (level > 20) return` guard, which fires exactly when `level ≥ 21`. -/
def findDependencies (fields : List CalculatedField) :
    Nat → CalculatedField → Nat → ResolveState → ResolveState
  | 0, _, _, st => st
  | fuel + 1, f, level, st =>
    if level > 20 then st
    else
      forEachToken fields level
        (fun dep st' => findDependencies fields fuel dep (level + 1) st')
        (extractTokens f.expression) st

/-- `getDependencyChain` of the source: seed the chain with the target
field at level 0, mark it visited, then run `findDependencies` from it
at level 0 (fuel 22 = 22 - 0). -/
def getDependencyChain (expression : CalculatedField)
    (calculatedFields : List CalculatedField) : List ChainEntry :=
  let st0 : ResolveState :=
    ⟨[⟨expression.name, expression.expression, "calculatedField", 0⟩],
     [expression.name]⟩
  (findDependencies calculatedFields 22 expression 0 st0).chain

/-! ### Invariants of the resolver -/

/-- The aliases of a chain, in order. -/
def chainAliases (c : List ChainEntry) : List String :=
  c.map ChainEntry.«alias»

/-- Resolver-state invariant: every chain alias is recorded in the
visited set, and the aliases are pairwise distinct. -/
def Inv (st : ResolveState) : Prop :=
  (∀ e ∈ st.chain, e.«alias» ∈ st.visited) ∧ (chainAliases st.chain).Nodup

/-- An entry the recursion may append: its alias resolves in the field
map to a record carrying exactly its expression, and its level is
positive (only the seed entry is at level 0). -/
def Justified (fields : List CalculatedField) (e : ChainEntry) : Prop :=
  ∃ fld, fieldMapLookup fields e.«alias» = some fld ∧ fld.name = e.«alias» ∧
    e.expression = fld.expression ∧ e.type = "calculatedField" ∧ 1 ≤ e.level

/-- Relation between a resolver state and any state the recursion can
turn it into: the chain is only appended to, the visited set only
grows, new visited names are names of supplied fields, new entries are
`Justified`, and the invariant is preserved. -/
def Step (fields : List CalculatedField) (st st' : ResolveState) : Prop :=
  (∃ s, st'.chain = st.chain ++ s) ∧
  (∀ x ∈ st.visited, x ∈ st'.visited) ∧
  (∀ x ∈ st'.visited, x ∈ st.visited ∨ ∃ fl ∈ fields, fl.name = x) ∧
  (∀ e ∈ st'.chain, e ∈ st.chain ∨ Justified fields e) ∧
  (Inv st → Inv st')

/-- The seed state of `getDependencyChain`. -/
def seedState (f : CalculatedField) : ResolveState :=
  ⟨[⟨f.name, f.expression, "calculatedField", 0⟩], [f.name]⟩

/-! ### Concrete inputs used by the testable properties -/

/-- Field `A` referencing `B` then `C` (spec §8, depth-first order). -/
def exA : CalculatedField := ⟨"A", "B + C", "ds"⟩

/-- Field `B` referencing `D`. -/
def exB : CalculatedField := ⟨"B", "D * 2", "ds"⟩

/-- Field `C`, no references. -/
def exC : CalculatedField := ⟨"C", "1", "ds"⟩

/-- Field `D`, no references. -/
def exD : CalculatedField := ⟨"D", "2", "ds"⟩

/-- Field `A` of the two-cycle `A -> B -> A`. -/
def cycA : CalculatedField := ⟨"A", "B", "ds"⟩

/-- Field `B` of the two-cycle `A -> B -> A`. -/
def cycB : CalculatedField := ⟨"B", "A", "ds"⟩

/-- The linear chain `F0 -> F1 -> ... -> F25`, each field referencing
exactly the next, the last referencing none. -/
def chainFields : List CalculatedField :=
  (List.range 26).map (fun k =>
    ⟨"F" ++ toString k, if k < 25 then "F" ++ toString (k + 1) else "1", "ds"⟩)

/-- The root `F0` of the linear chain. -/
def chainF0 : CalculatedField := ⟨"F0", "F1", "ds"⟩

/-- Expression `ifelse(status = 'Active', revenue, 0)` (the single
quotes written via `squote`). -/
def activeExpr : String :=
  "ifelse(status = " ++ String.mk [squote] ++ "Active" ++ String.mk [squote]
    ++ ", revenue, 0)"

/-- Target field whose expression holds the quoted literal. -/
def activeTarget : CalculatedField := ⟨"total", activeExpr, "ds"⟩

/-- Field set containing a field named `Active` and one named
`revenue`. -/
def activeFields : List CalculatedField :=
  [activeTarget, ⟨"Active", "1", "ds"⟩, ⟨"revenue", "price * qty", "ds"⟩]

/-- Target referencing the duplicated name `B`. -/
def dupA : CalculatedField := ⟨"A", "B", "ds"⟩

/-- Two records named `B`; insertion order makes the second win. -/
def dupFields : List CalculatedField :=
  [⟨"B", "old", "ds"⟩, ⟨"B", "new", "ds"⟩]

theorem step_refl (fields : List CalculatedField) (st : ResolveState) :
    Step fields st st :=
  ⟨⟨[], (List.append_nil _).symm⟩, fun _ hx => hx, fun _ hx => Or.inl hx,
   fun _ he => Or.inl he, fun h => h⟩

theorem step_trans {fields : List CalculatedField} {st st' st'' : ResolveState}
    (h1 : Step fields st st') (h2 : Step fields st' st'') :
    Step fields st st'' := by
  obtain ⟨⟨s1, hc1⟩, hv1, hn1, he1, hi1⟩ := h1
  obtain ⟨⟨s2, hc2⟩, hv2, hn2, he2, hi2⟩ := h2
  refine ⟨⟨s1 ++ s2, by rw [hc2, hc1, List.append_assoc]⟩,
    fun x hx => hv2 x (hv1 x hx), fun x hx => ?_, fun e he => ?_,
    fun h => hi2 (hi1 h)⟩
  · rcases hn2 x hx with hx' | hx'
    · exact hn1 x hx'
    · exact Or.inr hx'
  · rcases he2 e he with he' | he'
    · exact he1 e he'
    · exact Or.inr he'

/-- The `fieldMap` lookup only returns records from the supplied list,
keyed by their own name. -/
theorem fieldMapLookup_mem_aux (n : String) (fields : List CalculatedField)
    (acc : Option CalculatedField) (fld : CalculatedField)
    (h : fields.foldl (fun acc f => if f.name = n then some f else acc) acc
          = some fld) :
    acc = some fld ∨ (fld ∈ fields ∧ fld.name = n) := by
  induction fields generalizing acc with
  | nil => exact Or.inl h
  | cons g gs ih =>
    rw [List.foldl_cons] at h
    rcases ih _ h with h' | h'
    · by_cases hg : g.name = n
      · rw [if_pos hg] at h'
        exact Or.inr ⟨by simp [← Option.some_inj.mp h'], by
          rw [← Option.some_inj.mp h']; exact hg⟩
      · rw [if_neg hg] at h'
        exact Or.inl h'
    · exact Or.inr ⟨List.mem_cons_of_mem _ h'.1, h'.2⟩

theorem fieldMapLookup_mem {fields : List CalculatedField} {n : String}
    {fld : CalculatedField} (h : fieldMapLookup fields n = some fld) :
    fld ∈ fields ∧ fld.name = n := by
  rcases fieldMapLookup_mem_aux n fields none fld h with h' | h'
  · exact absurd h' (by simp)
  · exact h'

/-- Appending one dependency entry and marking its name visited is a
`Step`. -/
theorem step_push (fields : List CalculatedField) (level : Nat) (t : String)
    (dep : CalculatedField) (st : ResolveState)
    (hdep : fieldMapLookup fields t = some dep)
    (hnv : st.visited.contains t = false) :
    Step fields st
      ⟨st.chain ++ [⟨dep.name, dep.expression, "calculatedField", level + 1⟩],
       t :: st.visited⟩ := by
  obtain ⟨hmem, hname⟩ := fieldMapLookup_mem hdep
  have htv : t ∉ st.visited := by simpa using hnv
  refine ⟨⟨_, rfl⟩, fun x hx => List.mem_cons_of_mem _ hx, fun x hx => ?_,
    fun e he => ?_, fun hinv => ⟨fun e he => ?_, ?_⟩⟩
  · rcases List.mem_cons.mp hx with hx' | hx'
    · exact Or.inr ⟨dep, hmem, by rw [hname, hx']⟩
    · exact Or.inl hx'
  · rcases List.mem_append.mp he with he' | he'
    · exact Or.inl he'
    · refine Or.inr ⟨dep, ?_, ?_, ?_, ?_, ?_⟩ <;>
        simp [List.mem_singleton.mp he', hname, hdep]
  · rcases List.mem_append.mp he with he' | he'
    · exact List.mem_cons_of_mem _ (hinv.1 e he')
    · rw [List.mem_singleton.mp he']
      exact List.mem_cons.mpr (Or.inl hname)
  · have hnotin : dep.name ∉ chainAliases st.chain := by
      intro hc
      obtain ⟨e, he, hae⟩ := List.mem_map.mp hc
      exact htv (hname ▸ hae ▸ hinv.1 e he)
    have : chainAliases
        (st.chain ++ [⟨dep.name, dep.expression, "calculatedField", level + 1⟩])
        = chainAliases st.chain ++ [dep.name] := by
      simp [chainAliases]
    rw [this]
    exact List.Nodup.append hinv.2 (List.nodup_singleton _)
      (by simpa using hnotin)

/-- The token loop preserves `Step` whenever its recursion callback
does. -/
theorem forEachToken_step (fields : List CalculatedField) (level : Nat)
    (recurse : CalculatedField → ResolveState → ResolveState)
    (hrec : ∀ dep st, Step fields st (recurse dep st)) :
    ∀ (tokens : List String) (st : ResolveState),
      Step fields st (forEachToken fields level recurse tokens st) := by
  intro tokens
  induction tokens with
  | nil => intro st; exact step_refl fields st
  | cons t rest ih =>
    intro st
    show Step fields st (forEachToken fields level recurse (t :: rest) st)
    rw [forEachToken]
    rcases hlk : fieldMapLookup fields t with _ | dep
    · exact ih st
    · rcases hv : st.visited.contains t with _ | _
      · exact step_trans
          (step_trans (step_push fields level t dep st hlk hv)
            (hrec dep _)) (ih _)
      · exact ih st

/-- The recursive dependency walk preserves `Step`, for every fuel. -/
theorem findDependencies_step (fields : List CalculatedField) :
    ∀ (fuel : Nat) (f : CalculatedField) (level : Nat) (st : ResolveState),
      Step fields st (findDependencies fields fuel f level st) := by
  intro fuel
  induction fuel with
  | zero => intro f level st; exact step_refl fields st
  | succ fuel ih =>
    intro f level st
    rw [findDependencies]
    by_cases hlv : level > 20
    · rw [if_pos hlv]; exact step_refl fields st
    · rw [if_neg hlv]
      exact forEachToken_step fields level _
        (fun dep st' => ih dep (level + 1) st') (extractTokens f.expression) st

theorem seedState_inv (f : CalculatedField) : Inv (seedState f) := by
  constructor
  · intro e he
    rw [List.mem_singleton.mp he]
    exact List.mem_singleton.mpr rfl
  · simp [seedState, chainAliases]

theorem getDependencyChain_step (f : CalculatedField)
    (fields : List CalculatedField) :
    Step fields (seedState f)
      (findDependencies fields 22 f 0 (seedState f)) :=
  findDependencies_step fields 22 f 0 (seedState f)

theorem getDependencyChain_eq_chain (f : CalculatedField)
    (fields : List CalculatedField) :
    getDependencyChain f fields
      = (findDependencies fields 22 f 0 (seedState f)).chain := rfl

/-- The resolved chain is the seed entry followed by some suffix. -/
theorem getDependencyChain_cons (f : CalculatedField)
    (fields : List CalculatedField) :
    ∃ s, getDependencyChain f fields
      = (⟨f.name, f.expression, "calculatedField", 0⟩ : ChainEntry) :: s := by
  obtain ⟨⟨s, hs⟩, -, -, -, -⟩ := getDependencyChain_step f fields
  exact ⟨s, by rw [getDependencyChain_eq_chain, hs]; rfl⟩

/-- Aliases of the resolved chain are pairwise distinct. -/
theorem getDependencyChain_nodup (f : CalculatedField)
    (fields : List CalculatedField) :
    (chainAliases (getDependencyChain f fields)).Nodup := by
  obtain ⟨-, -, -, -, hinv⟩ := getDependencyChain_step f fields
  rw [getDependencyChain_eq_chain]
  exact (hinv (seedState_inv f)).2

/-- Every entry of the resolved chain is the seed entry or `Justified`. -/
theorem getDependencyChain_mem (f : CalculatedField)
    (fields : List CalculatedField) (e : ChainEntry)
    (he : e ∈ getDependencyChain f fields) :
    e = (⟨f.name, f.expression, "calculatedField", 0⟩ : ChainEntry)
      ∨ Justified fields e := by
  obtain ⟨-, -, -, hent, -⟩ := getDependencyChain_step f fields
  rw [getDependencyChain_eq_chain] at he
  rcases hent e he with he' | he'
  · exact Or.inl (List.mem_singleton.mp he')
  · exact Or.inr he'

/-- Every alias of the resolved chain is the target's name or the name
of a supplied field. -/
theorem getDependencyChain_alias_mem (f : CalculatedField)
    (fields : List CalculatedField) (a : String)
    (ha : a ∈ chainAliases (getDependencyChain f fields)) :
    a = f.name ∨ ∃ fl ∈ fields, fl.name = a := by
  obtain ⟨-, -, hnames, -, hinv⟩ := getDependencyChain_step f fields
  rw [getDependencyChain_eq_chain, chainAliases] at ha
  obtain ⟨e, he, hae⟩ := List.mem_map.mp ha
  have hav := (hinv (seedState_inv f)).1 e he
  rcases hnames _ hav with hv | hv
  · left; rw [← hae]; exact List.mem_singleton.mp hv
  · rw [← hae]; exact Or.inr hv

/-- The chain never grows beyond one entry per distinct supplied name
plus the seed entry. -/
theorem getDependencyChain_length_le (f : CalculatedField)
    (fields : List CalculatedField) :
    (getDependencyChain f fields).length ≤ fields.length + 1 := by
  have hnd := getDependencyChain_nodup f fields
  have hsub : ∀ a ∈ chainAliases (getDependencyChain f fields),
      a ∈ f.name :: fields.map CalculatedField.name := by
    intro a ha
    rcases getDependencyChain_alias_mem f fields a ha with h | ⟨fl, hfl, hn⟩
    · exact h ▸ List.mem_cons_self _ _
    · exact List.mem_cons_of_mem _ (List.mem_map.mpr ⟨fl, hfl, hn⟩)
  have h1 : (getDependencyChain f fields).length
      = (chainAliases (getDependencyChain f fields)).length := by
    simp [chainAliases]
  rw [h1, ← List.toFinset_card_of_nodup hnd]
  have h2 : (chainAliases (getDependencyChain f fields)).toFinset
      ⊆ (f.name :: fields.map CalculatedField.name).toFinset := by
    intro a ha
    rw [List.mem_toFinset] at ha ⊢
    exact hsub a ha
  calc (chainAliases (getDependencyChain f fields)).toFinset.card
      ≤ (f.name :: fields.map CalculatedField.name).toFinset.card :=
        Finset.card_le_card h2
    _ ≤ (f.name :: fields.map CalculatedField.name).length :=
        List.toFinset_card_le _
    _ = fields.length + 1 := by simp

/-- Successive `Map.set` insertion makes the lookup return the record
occurring last in the list among those with the queried name. -/
theorem fieldMapLookup_last (fields : List CalculatedField) (n : String) :
    fieldMapLookup fields n
      = (fields.filter (fun fl => fl.name == n)).getLast? := by
  induction fields using List.reverseRecOn with
  | nil => rfl
  | append_singleton fs g ih =>
    unfold fieldMapLookup at ih ⊢
    rw [List.foldl_append, List.filter_append, List.foldl_cons, List.foldl_nil]
    by_cases hg : g.name = n
    · rw [if_pos hg]
      have hfg : List.filter (fun fl => fl.name == n) [g] = [g] := by
        simp [List.filter_cons, hg]
      rw [hfg, List.getLast?_concat]
    · rw [if_neg hg]
      have hfg : List.filter (fun fl => fl.name == n) [g] = [] := by
        simp [List.filter_cons, hg]
      rw [hfg, List.append_nil, ih]

/-- Every entry after the seed entry is `Justified`. -/
theorem getDependencyChain_tail_justified (f : CalculatedField)
    (fields : List CalculatedField) (e : ChainEntry)
    (he : e ∈ (getDependencyChain f fields).tail) :
    Justified fields e := by
  obtain ⟨s, hs⟩ := getDependencyChain_cons f fields
  have hetail : e ∈ s := by rw [hs] at he; exact he
  have hemem : e ∈ getDependencyChain f fields := by
    rw [hs]; exact List.mem_cons_of_mem _ hetail
  rcases getDependencyChain_mem f fields e hemem with h0 | hj
  · exfalso
    have hnd := getDependencyChain_nodup f fields
    rw [hs, chainAliases, List.map_cons, List.nodup_cons] at hnd
    exact hnd.1 (List.mem_map.mpr ⟨e, hetail, by rw [h0]⟩)
  · exact hj

/-! ### Lemmas about the token scanner -/

theorem scanChars_append (cs ds : List Char) (st : ScanState) :
    scanChars (cs ++ ds) st = scanChars ds (scanChars cs st) := by
  simp [scanChars, List.foldl_append]

/-- While the single-quote state is active, characters other than a
single quote leave the scanner state unchanged. -/
theorem scanChars_inSingleQuote (cs : List Char) (st : ScanState)
    (h : st.inSingleQuote = true) (hq : squote ∉ cs) :
    scanChars cs st = st := by
  induction cs with
  | nil => rfl
  | cons c cs ih =>
    have hc : (c == squote) = false := by
      simp only [beq_eq_false_iff_ne, ne_eq]
      intro hcq
      exact hq (hcq ▸ List.mem_cons_self c cs)
    have hstep : scanStep st c = st := by
      simp [scanStep, h, hc]
    show scanChars cs (scanStep st c) = st
    rw [hstep]
    exact ih fun hm => hq (List.mem_cons_of_mem _ hm)

/-- While the double-quote state is active, characters other than a
double quote leave the scanner state unchanged. -/
theorem scanChars_inDoubleQuote (cs : List Char) (st : ScanState)
    (h : st.inDoubleQuote = true) (hq : dquote ∉ cs) :
    scanChars cs st = st := by
  induction cs with
  | nil => rfl
  | cons c cs ih =>
    have hc : (c == dquote) = false := by
      simp only [beq_eq_false_iff_ne, ne_eq]
      intro hcq
      exact hq (hcq ▸ List.mem_cons_self c cs)
    have hstep : scanStep st c = st := by
      simp [scanStep, h, hc]
    show scanChars cs (scanStep st c) = st
    rw [hstep]
    exact ih fun hm => hq (List.mem_cons_of_mem _ hm)

/-! ### Claim theorems -/

/-- Claim C1: for every target field and every field set, no two
entries in the sequence returned by `getDependencyChain` share the same
alias value, even when multiple fields reference the same field or the
reference graph contains cycles. -/
theorem resolve_alias_nodup (f : CalculatedField)
    (fields : List CalculatedField) :
    ((getDependencyChain f fields).map ChainEntry.«alias»).Nodup :=
  getDependencyChain_nodup f fields

set_option maxRecDepth 200000 in
/-- Claim C2: entries are produced in depth-first pre-order.  For
fields `A` (referencing `B` then `C`), `B` (referencing `D`), `C` and
`D`, resolving from `A` yields exactly `[A(0), B(1), D(2), C(1)]`, and
not the breadth-first order `[A(0), B(1), C(1), D(2)]`. -/
theorem resolve_depth_first_order :
    getDependencyChain exA [exA, exB, exC, exD]
      = [⟨"A", "B + C", "calculatedField", 0⟩,
         ⟨"B", "D * 2", "calculatedField", 1⟩,
         ⟨"D", "2", "calculatedField", 2⟩,
         ⟨"C", "1", "calculatedField", 1⟩] ∧
    getDependencyChain exA [exA, exB, exC, exD]
      ≠ [⟨"A", "B + C", "calculatedField", 0⟩,
         ⟨"B", "D * 2", "calculatedField", 1⟩,
         ⟨"C", "1", "calculatedField", 1⟩,
         ⟨"D", "2", "calculatedField", 2⟩] :=
  ⟨by decide, by decide⟩

/-- Claim C3: `getDependencyChain` is total — the embedding is a total
(structurally terminating) function for arbitrary expression contents,
and its output is bounded by one entry per supplied field plus the seed
entry, regardless of cycles. -/
theorem resolve_terminates_bounded (f : CalculatedField)
    (fields : List CalculatedField) :
    (getDependencyChain f fields).length ≤ fields.length + 1 :=
  getDependencyChain_length_le f fields

set_option maxRecDepth 600000 in
/-- Claim C4: for the linear chain `F0 -> ... -> F25`, resolution from
`F0` terminates with exactly the entries `F0..F21` at levels `0..21`:
`F21`, pushed at level 21, is never expanded (its successor `F22` is
absent), because the recursion stops expanding once the level exceeds
the bound 20. -/
theorem resolve_depth_bound_chain :
    (getDependencyChain chainF0 chainFields).map
        (fun e => (e.«alias», e.level))
      = (List.range 22).map (fun k => ("F" ++ toString k, k)) := by
  decide

set_option maxRecDepth 200000 in
/-- Claim C5: for the two-cycle `A -> B -> A`, resolution from `A`
yields exactly `A` at level 0 and `B` at level 1, terminating without
re-emitting `A`. -/
theorem resolve_cycle_safe :
    getDependencyChain cycA [cycA, cycB]
      = [⟨"A", "B", "calculatedField", 0⟩,
         ⟨"B", "A", "calculatedField", 1⟩] := by
  decide

set_option maxRecDepth 200000 in
/-- Claim C6: for a target whose expression is
`ifelse(status = 'Active', revenue, 0)` and a field set containing a
field named `Active`, the resolved chain contains no entry aliased
`Active`, because that token occurs only inside a single-quoted string
literal. -/
theorem resolve_quoted_literal_excluded :
    "Active" ∉ (getDependencyChain activeTarget activeFields).map
      ChainEntry.«alias» := by
  decide

set_option maxRecDepth 200000 in
/-- Claim C7: characters inside an active quote are not emitted and do
not terminate an in-progress token: `extractTokens` applied to
`abc'def'ghi` yields the single token `abcghi`, not the two tokens
`abc` and `ghi`. -/
theorem extractTokens_quote_sink :
    extractTokens
        ("abc" ++ String.mk [squote] ++ "def" ++ String.mk [squote] ++ "ghi")
      = ["abcghi"] ∧
    extractTokens
        ("abc" ++ String.mk [squote] ++ "def" ++ String.mk [squote] ++ "ghi")
      ≠ ["abc", "ghi"] :=
  ⟨by decide, by decide⟩

set_option maxRecDepth 200000 in
/-- Claim C8: for every target field `f` and every field set — also
when no supplied field is named `f.name` — the chain is non-empty and
starts with alias `f.name`, expression `f.expression`, level 0; a
target absent from the supplied set is still accepted and its
expression is scanned for matches (concrete second conjunct). -/
theorem resolve_head_entry :
    (∀ (f : CalculatedField) (fields : List CalculatedField),
      (getDependencyChain f fields).head?
        = some ⟨f.name, f.expression, "calculatedField", 0⟩) ∧
    getDependencyChain ⟨"X", "B", "ds"⟩ [⟨"B", "1", "ds"⟩]
      = [⟨"X", "B", "calculatedField", 0⟩,
         ⟨"B", "1", "calculatedField", 1⟩] := by
  constructor
  · intro f fields
    obtain ⟨s, hs⟩ := getDependencyChain_cons f fields
    rw [hs]
    rfl
  · decide

/-- Claim C9: an unmatched quote makes all text after it count as
inside a quote and be dropped: if scanning `pre` ends with both quote
flags off, `q` is a single or double quote, and the corresponding
closing quote never occurs in `post`, then tokenizing
`pre ++ q ++ post` yields exactly the tokens of `pre` alone (a token in
progress before the quote is still emitted at end of input, as it is
for `pre`). -/
theorem extractTokens_unbalanced_quote (pre post : String) (q : Char)
    (hq : q = squote ∨ q = dquote)
    (hs : (scanChars pre.data ⟨false, false, [], []⟩).inSingleQuote = false)
    (hd : (scanChars pre.data ⟨false, false, [], []⟩).inDoubleQuote = false)
    (hpost : q ∉ post.data) :
    extractTokens (pre ++ String.mk [q] ++ post) = extractTokens pre := by
  have hdata : (pre ++ String.mk [q] ++ post).data
      = pre.data ++ ([q] ++ post.data) := by
    simp [List.append_assoc]
  unfold extractTokens
  rw [hdata, scanChars_append, scanChars_append]
  rcases hq with hq | hq
  · subst hq
    have h1 : scanChars [squote] (scanChars pre.data ⟨false, false, [], []⟩)
        = { scanChars pre.data ⟨false, false, [], []⟩ with
            inSingleQuote := true } := by
      show scanStep _ squote = _
      simp [scanStep, hs, hd]
    rw [h1, scanChars_inSingleQuote _ _ rfl hpost]
  · subst hq
    have hne : (dquote == squote) = false := by decide
    have h1 : scanChars [dquote] (scanChars pre.data ⟨false, false, [], []⟩)
        = { scanChars pre.data ⟨false, false, [], []⟩ with
            inDoubleQuote := true } := by
      show scanStep _ dquote = _
      simp [scanStep, hs, hd, hne]
    rw [h1, scanChars_inDoubleQuote _ _ rfl hpost]

/-- Witness for C9: dropping everything after the unmatched single
quote in `abc def'ghi jkl`. -/
theorem extractTokens_unbalanced_quote_wit :
    extractTokens ("abc def" ++ String.mk [squote] ++ "ghi jkl")
      = extractTokens "abc def" :=
  extractTokens_unbalanced_quote "abc def" "ghi jkl" squote (Or.inl rfl)
    (by decide) (by decide) (by decide)

/-- Claim C10: when the supplied list holds several records with the
same name, the lookup map is built by successive insertion, so every
dependency entry produced for that name carries the expression of the
record occurring last in the list, and the name appears at most once in
the chain. -/
theorem resolve_duplicate_last_wins (f : CalculatedField)
    (fields : List CalculatedField) (n : String) (fl : CalculatedField)
    (_hdup : 1 < (fields.filter (fun g => g.name == n)).length)
    (hlast : (fields.filter (fun g => g.name == n)).getLast? = some fl) :
    (∀ e ∈ (getDependencyChain f fields).tail,
        e.«alias» = n → e.expression = fl.expression) ∧
    ((getDependencyChain f fields).map ChainEntry.«alias»).count n ≤ 1 := by
  constructor
  · intro e he hen
    obtain ⟨fld, hlk, hnm, hexp, -, -⟩ :=
      getDependencyChain_tail_justified f fields e he
    rw [hen, fieldMapLookup_last, hlast] at hlk
    rw [hexp, Option.some_inj.mp hlk]
  · exact List.nodup_iff_count_le_one.mp (getDependencyChain_nodup f fields) n

set_option maxRecDepth 200000 in
/-- Witness for C10: with records `B -> "old"` then `B -> "new"`, the
dependency entry for `B` carries `"new"`, and `B` occurs once. -/
theorem resolve_duplicate_last_wins_wit :
    (ChainEntry.mk "B" "new" "calculatedField" 1).expression = "new" ∧
    ((getDependencyChain dupA dupFields).map ChainEntry.«alias»).count "B"
      ≤ 1 :=
  ⟨(resolve_duplicate_last_wins dupA dupFields "B" ⟨"B", "new", "ds"⟩
      (by decide) (by decide)).1
      ⟨"B", "new", "calculatedField", 1⟩ (by decide) rfl,
   (resolve_duplicate_last_wins dupA dupFields "B" ⟨"B", "new", "ds"⟩
      (by decide) (by decide)).2⟩

end GraphUtils
